import Mathlib

/-!
# Verification of the DenDen Nostr client core

Shallow embedding of the protocol core of the DenDen repository:
the NIP-13 proof-of-work miner (`pow` package), the NIP-44 encryption
wrappers (`internal/crypto/nip44.go`), the contact-list Follow/Unfollow
operations, the kind-0 profile cache and the like cache
(`mobile` package).

Go machine integers that matter here are small non-negative counters
(nonce, attempt count, difficulty), modelled as `Nat`; unix timestamps
are modelled as `Int`.  The external go-nostr library functions
(`event.GetID`, i.e. SHA-256 of the canonical serialization, and JSON
parsing) are not part of this repository; they are abstracted as
function parameters, so every theorem holds for the real library
instantiation.
-/

/-- A Nostr event (go-nostr `nostr.Event`): id, author pubkey, created-at
unix timestamp, kind, tags (ordered list of string lists), content.
The signature field is omitted: none of the verified operations reads it. -/
structure NEvent where
  id : String
  pubkey : String
  createdAt : Int
  kind : Nat
  tags : List (List String)
  content : String
deriving Repr, DecidableEq

/-- The fields of an event that enter its canonical serialization
`[0, pubkey, created_at, kind, tags, content]` — everything except the
id (and signature).  `GetID` is a function of exactly these fields. -/
structure EventCore where
  pubkey : String
  createdAt : Int
  kind : Nat
  tags : List (List String)
  content : String
deriving Repr, DecidableEq

/-- Projection of an event onto its serialized fields. -/
def NEvent.core (e : NEvent) : EventCore :=
  ⟨e.pubkey, e.createdAt, e.kind, e.tags, e.content⟩

namespace pow

/-- Go `bits.LeadingZeros8 b`: leading zero bits of a byte
(8 minus the bit length, written out so it evaluates on bytes). -/
def leadingZeros8 (b : Nat) : Nat :=
  if 128 ≤ b then 0
  else if 64 ≤ b then 1
  else if 32 ≤ b then 2
  else if 16 ≤ b then 3
  else if 8 ≤ b then 4
  else if 4 ≤ b then 5
  else if 2 ≤ b then 6
  else if 1 ≤ b then 7
  else 8

/-- `countLeadingZeroBits` from `pow`: scan bytes most-significant first;
a zero byte adds 8 and the scan continues; the first non-zero byte adds
its own leading-zero-bit count and the scan stops. -/
def countLeadingZeroBits : List Nat → Nat
  | [] => 0
  | b :: bs => if b = 0 then 8 + countLeadingZeroBits bs else leadingZeros8 b

/-- Value of a hex digit character, `none` if not a hex digit
(Go `encoding/hex` accepts 0-9, a-f, A-F). -/
def hexDigitVal (c : Char) : Option Nat :=
  if '0' ≤ c ∧ c ≤ '9' then some (c.toNat - '0'.toNat)
  else if 'a' ≤ c ∧ c ≤ 'f' then some (c.toNat - 'a'.toNat + 10)
  else if 'A' ≤ c ∧ c ≤ 'F' then some (c.toNat - 'A'.toNat + 10)
  else none

/-- Go `hex.DecodeString` on a character list: two hex digits per byte;
fails on an odd-length input or a non-hex character. -/
def hexDecode : List Char → Option (List Nat)
  | [] => some []
  | [_] => none
  | c1 :: c2 :: rest =>
    match hexDigitVal c1, hexDigitVal c2, hexDecode rest with
    | some h, some l, some bs => some ((16 * h + l) :: bs)
    | _, _, _ => none

/-- `CheckDifficulty` from `pow`: hex-decode the event id; on failure
return false, otherwise compare the leading-zero-bit count with the
required difficulty. -/
def CheckDifficulty (eventID : String) (difficulty : Nat) : Bool :=
  match hexDecode eventID.data with
  | none => false
  | some idBytes => difficulty ≤ countLeadingZeroBits idBytes

/-- The nonce tag `["nonce", itoa nonce, itoa targetDifficulty]` built by
`MineEvent`. -/
def nonceTag (nonce targetDifficulty : Nat) : List String :=
  ["nonce", toString nonce, toString targetDifficulty]

/-- Go `len(tag) > 0 && tag[0] == "nonce"`: the tag is non-empty and its
first element is `"nonce"`. -/
def hasNonceHead (t : List String) : Bool := t.head? = some "nonce"

/-- The tag update performed on each mining iteration: replace the first
tag whose head is `"nonce"` in place, keeping every other tag; if no such
tag exists, append the new nonce tag at the end. -/
def setNonceTag (nt : List String) : List (List String) → List (List String)
  | [] => [nt]
  | t :: ts => if hasNonceHead t then nt :: ts else t :: setNonceTag nt ts

/-- One `MineEvent` loop body at a given nonce/attempt counter: install
the nonce tag, refresh the created-at timestamp to the current time, and
recompute the id from the serialized fields. -/
def mineBody (getID : EventCore → String) (nowAt : Nat → Int)
    (targetDifficulty : Nat) (ev : NEvent) (nonce attempts : Nat) : NEvent :=
  let ev1 : NEvent := { ev with tags := setNonceTag (nonceTag nonce targetDifficulty) ev.tags }
  let ev2 : NEvent := { ev1 with createdAt := nowAt attempts }
  { ev2 with id := getID ev2.core }

/-- The `MineEvent` search loop.  The Go loop is unbounded; it is embedded
with explicit fuel, `none` standing for "still searching".  `getID`
abstracts go-nostr `event.GetID()` (SHA-256 of the canonical
serialization, a function of `EventCore` only) and `nowAt k` the value of
`time.Now().Unix()` on attempt `k`.  On success it returns
(nonce, attempts, mined event). -/
def mineLoop (getID : EventCore → String) (nowAt : Nat → Int)
    (targetDifficulty : Nat) :
    Nat → NEvent → Nat → Nat → Option (Nat × Nat × NEvent)
  | 0, _, _, _ => none
  | fuel + 1, ev, nonce, attempts =>
    let ev' := mineBody getID nowAt targetDifficulty ev nonce attempts
    if CheckDifficulty ev'.id targetDifficulty then
      some (nonce, attempts + 1, ev')
    else
      mineLoop getID nowAt targetDifficulty fuel ev' (nonce + 1) (attempts + 1)

/-- `MineEvent event targetDifficulty`: run the search starting from
nonce 0, attempts 0 (duration reporting omitted). -/
def MineEvent (getID : EventCore → String) (nowAt : Nat → Int)
    (fuel : Nat) (ev : NEvent) (targetDifficulty : Nat) :
    Option (Nat × Nat × NEvent) :=
  mineLoop getID nowAt targetDifficulty fuel ev 0 0

/-- `GetDifficultyRecommendation` from `pow`: difficulty lookup table. -/
def GetDifficultyRecommendation (messageType : String) : Nat :=
  if messageType = "private" then 12
  else if messageType = "group" then 16
  else if messageType = "public" then 20
  else 12

/-- Reference form of the leading-zero count, following the spec text:
8 bits for every byte in the maximal zero-byte prefix, plus the
leading-zero-bit count of the first non-zero byte when one exists. -/
def clzSpec (data : List Nat) : Nat :=
  8 * (data.takeWhile (· = 0)).length +
    match data.dropWhile (· = 0) with
    | [] => 0
    | b :: _ => leadingZeros8 b

end pow

namespace pow

theorem hasNonceHead_nonceTag (n d : Nat) : hasNonceHead (nonceTag n d) = true := by
  simp [hasNonceHead, nonceTag]

theorem countLeadingZeroBits_eq_clzSpec (data : List Nat) :
    countLeadingZeroBits data = clzSpec data := by
  induction data with
  | nil => rfl
  | cons b bs ih =>
    by_cases hb : b = 0
    · subst hb
      simp [countLeadingZeroBits, clzSpec, List.takeWhile, List.dropWhile] at ih ⊢
      omega
    · simp [countLeadingZeroBits, clzSpec, List.takeWhile, List.dropWhile, hb]

theorem setNonceTag_length (nt : List String) (ts : List (List String)) :
    (setNonceTag nt ts).length =
      if ts.any hasNonceHead then ts.length else ts.length + 1 := by
  induction ts with
  | nil => simp [setNonceTag]
  | cons t ts ih =>
    by_cases ht : hasNonceHead t = true
    · simp [setNonceTag, ht]
    · simp only [setNonceTag, ht, if_false, Bool.false_eq_true, List.any_cons,
        Bool.false_or, List.length_cons, ih]
      split <;> simp

theorem setNonceTag_getElem_of_not_nonce (nt : List String)
    (ts : List (List String)) :
    ∀ (i : Nat) (t : List String), ts[i]? = some t → hasNonceHead t = false →
      (setNonceTag nt ts)[i]? = some t := by
  induction ts with
  | nil => intro i t h _; simp at h
  | cons t' ts ih =>
    intro i t h hn
    by_cases hh : hasNonceHead t' = true
    · cases i with
      | zero =>
        simp only [List.getElem?_cons_zero, Option.some.injEq] at h
        subst h; rw [hh] at hn; cases hn
      | succ j => simpa [setNonceTag, hh] using h
    · cases i with
      | zero => simpa [setNonceTag, hh] using h
      | succ j =>
        simp only [List.getElem?_cons_succ] at h
        simpa [setNonceTag, hh] using ih j t h hn

theorem find?_setNonceTag (nt : List String) (hnt : hasNonceHead nt = true)
    (ts : List (List String)) :
    (setNonceTag nt ts).find? hasNonceHead = some nt := by
  induction ts with
  | nil => simp [setNonceTag, List.find?, hnt]
  | cons t ts ih =>
    by_cases ht : hasNonceHead t = true
    · simp [setNonceTag, ht, List.find?, hnt]
    · simp [setNonceTag, ht, List.find?, ih]

theorem setNonceTag_comp (nt nt' : List String) (hnt : hasNonceHead nt = true)
    (ts : List (List String)) :
    setNonceTag nt' (setNonceTag nt ts) = setNonceTag nt' ts := by
  induction ts with
  | nil => simp [setNonceTag, hnt]
  | cons t ts ih =>
    by_cases ht : hasNonceHead t = true
    · simp [setNonceTag, ht, hnt]
    · simp [setNonceTag, ht, ih]

theorem mineBody_id (getID : EventCore → String) (nowAt : Nat → Int)
    (target : Nat) (ev : NEvent) (nonce attempts : Nat) :
    (mineBody getID nowAt target ev nonce attempts).id =
      getID (mineBody getID nowAt target ev nonce attempts).core := rfl

theorem mineLoop_spec (getID : EventCore → String) (nowAt : Nat → Int)
    (target : Nat) :
    ∀ (fuel : Nat) (ev : NEvent) (nonce attempts nonce' attempts' : Nat)
      (final : NEvent),
      mineLoop getID nowAt target fuel ev nonce attempts =
          some (nonce', attempts', final) →
      CheckDifficulty final.id target = true ∧
      final.id = getID final.core ∧
      final.tags = setNonceTag (nonceTag nonce' target) ev.tags ∧
      final.createdAt = nowAt (attempts' - 1) ∧
      attempts < attempts' ∧
      final.pubkey = ev.pubkey ∧ final.kind = ev.kind ∧
      final.content = ev.content := by
  intro fuel
  induction fuel with
  | zero =>
    intro ev nonce attempts nonce' attempts' final h
    simp [mineLoop] at h
  | succ n ih =>
    intro ev nonce attempts nonce' attempts' final h
    rw [mineLoop] at h
    by_cases hc :
        CheckDifficulty (mineBody getID nowAt target ev nonce attempts).id
          target = true
    · rw [if_pos hc] at h
      obtain ⟨h1, h2, h3⟩ :
          nonce = nonce' ∧ attempts + 1 = attempts' ∧
            mineBody getID nowAt target ev nonce attempts = final := by
        simpa using h
      subst h1; subst h3
      refine ⟨hc, mineBody_id getID nowAt target ev nonce attempts, rfl, ?_, ?_, rfl, rfl, rfl⟩
      · rw [← h2]; simp [mineBody]
      · omega
    · rw [if_neg hc] at h
      obtain ⟨g1, g2, g3, g4, g5, g6, g7, g8⟩ :=
        ih (mineBody getID nowAt target ev nonce attempts) (nonce + 1)
          (attempts + 1) nonce' attempts' final h
      refine ⟨g1, g2, ?_, g4, by omega, g6, g7, g8⟩
      rw [g3]
      show setNonceTag (nonceTag nonce' target)
          (setNonceTag (nonceTag nonce target) ev.tags) = _
      rw [setNonceTag_comp _ _ (hasNonceHead_nonceTag nonce target)]

end pow

namespace pow

theorem mineLoop_createdAt_irrel (getID : EventCore → String) (nowAt : Nat → Int)
    (target : Nat) (fuel : Nat) (ev : NEvent) (t : Int) (nonce attempts : Nat) :
    mineLoop getID nowAt target fuel { ev with createdAt := t } nonce attempts =
      mineLoop getID nowAt target fuel ev nonce attempts := by
  cases fuel <;> rfl

end pow

/-- C1: for every event and target difficulty in 0–16, if `MineEvent`
returns then the mined event's id hex-decodes to bytes whose
leading-zero-bit count is at least the target difficulty, the id is the
hash (`getID`) of the event's canonical fields, and the returned nonce is
the value stored in the event's nonce tag. -/
theorem MineEvent_meets_difficulty
    (getID : EventCore → String) (nowAt : Nat → Int) (fuel : Nat)
    (ev : NEvent) (target nonce attempts : Nat) (final : NEvent)
    (_htarget : target ≤ 16)
    (h : pow.MineEvent getID nowAt fuel ev target = some (nonce, attempts, final)) :
    (∃ idBytes, pow.hexDecode final.id.data = some idBytes ∧
        target ≤ pow.countLeadingZeroBits idBytes) ∧
    final.id = getID final.core ∧
    final.tags.find? pow.hasNonceHead = some (pow.nonceTag nonce target) := by
  obtain ⟨g1, g2, g3, -, -, -, -, -⟩ :=
    pow.mineLoop_spec getID nowAt target fuel ev 0 0 nonce attempts final h
  refine ⟨?_, g2, ?_⟩
  · rw [pow.CheckDifficulty] at g1
    cases hhex : pow.hexDecode final.id.data with
    | none => rw [hhex] at g1; cases g1
    | some idBytes =>
      rw [hhex] at g1
      exact ⟨idBytes, rfl, by simpa using g1⟩
  · rw [g3]
    exact pow.find?_setNonceTag _ (pow.hasNonceHead_nonceTag nonce target) ev.tags

def wGetID : EventCore → String := fun _ => "00ff"

def wNow : Nat → Int := fun _ => 0

def wEv : NEvent := ⟨"", "pk", 7, 1, [], "hi"⟩

def wFinal : NEvent := ⟨"00ff", "pk", 0, 1, [["nonce", "0", "8"]], "hi"⟩

theorem MineEvent_meets_difficulty_witness :
    (8 : Nat) ≤ 16 ∧
    pow.MineEvent wGetID wNow 1 wEv 8 = some (0, 1, wFinal) ∧
    ((∃ idBytes, pow.hexDecode wFinal.id.data = some idBytes ∧
        8 ≤ pow.countLeadingZeroBits idBytes) ∧
      wFinal.id = wGetID wFinal.core ∧
      wFinal.tags.find? pow.hasNonceHead = some (pow.nonceTag 0 8)) :=
  ⟨by decide, by decide,
    MineEvent_meets_difficulty wGetID wNow 1 wEv 8 0 1 wFinal (by decide) (by decide)⟩

/-- C4: `countLeadingZeroBits` agrees with the spec's reference count
(8 bits per leading zero byte, plus the leading-zero-bit count of the
first non-zero byte), and `CheckDifficulty` holds exactly when the event
id is valid hex whose decoded bytes have at least `difficulty` leading
zero bits. -/
theorem countLeadingZeroBits_and_CheckDifficulty_spec :
    (∀ data : List Nat, pow.countLeadingZeroBits data = pow.clzSpec data) ∧
    (∀ (eventID : String) (difficulty : Nat),
      pow.CheckDifficulty eventID difficulty = true ↔
        ∃ idBytes, pow.hexDecode eventID.data = some idBytes ∧
          difficulty ≤ pow.clzSpec idBytes) := by
  refine ⟨pow.countLeadingZeroBits_eq_clzSpec, ?_⟩
  intro eventID difficulty
  rw [pow.CheckDifficulty]
  cases hhex : pow.hexDecode eventID.data with
  | none => simp
  | some bs => simp [pow.countLeadingZeroBits_eq_clzSpec bs]

/-- C3: if `MineEvent` returns, every tag of the input event that is not
a nonce tag is still present, unchanged, at the same position in the
mined event; the tag list keeps its length when a nonce tag was already
present and grows by exactly one otherwise. -/
theorem MineEvent_preserves_other_tags
    (getID : EventCore → String) (nowAt : Nat → Int) (fuel : Nat)
    (ev : NEvent) (target nonce attempts : Nat) (final : NEvent)
    (h : pow.MineEvent getID nowAt fuel ev target = some (nonce, attempts, final)) :
    (∀ (i : Nat) (t : List String), ev.tags[i]? = some t →
        pow.hasNonceHead t = false → final.tags[i]? = some t) ∧
    (if ev.tags.any pow.hasNonceHead then final.tags.length = ev.tags.length
      else final.tags.length = ev.tags.length + 1) := by
  obtain ⟨-, -, g3, -, -, -, -, -⟩ :=
    pow.mineLoop_spec getID nowAt target fuel ev 0 0 nonce attempts final h
  constructor
  · intro i t hi hn
    rw [g3]
    exact pow.setNonceTag_getElem_of_not_nonce _ _ i t hi hn
  · rw [g3, pow.setNonceTag_length]
    by_cases hc : ev.tags.any pow.hasNonceHead = true <;> simp [hc]

def wEv3 : NEvent := ⟨"", "pk", 7, 4, [["p", "bob"]], "dm"⟩

def wFinal3 : NEvent := ⟨"00ff", "pk", 0, 4, [["p", "bob"], ["nonce", "0", "8"]], "dm"⟩

theorem MineEvent_preserves_other_tags_witness :
    pow.MineEvent wGetID wNow 1 wEv3 8 = some (0, 1, wFinal3) ∧
    ((∀ (i : Nat) (t : List String), wEv3.tags[i]? = some t →
        pow.hasNonceHead t = false → wFinal3.tags[i]? = some t) ∧
      (if wEv3.tags.any pow.hasNonceHead then
          wFinal3.tags.length = wEv3.tags.length
        else wFinal3.tags.length = wEv3.tags.length + 1)) :=
  ⟨by decide,
    MineEvent_preserves_other_tags wGetID wNow 1 wEv3 8 0 1 wFinal3 (by decide)⟩

/-- C7: on every mining iteration the created-at timestamp is refreshed
before the id is recomputed: the mined event's timestamp is the clock
value of the final attempt, its id is the hash of the fields including
that timestamp, and the result is independent of the timestamp the event
carried when mining started. -/
theorem MineEvent_embeds_final_timestamp
    (getID : EventCore → String) (nowAt : Nat → Int) (fuel : Nat)
    (ev : NEvent) (target nonce attempts : Nat) (final : NEvent)
    (h : pow.MineEvent getID nowAt fuel ev target = some (nonce, attempts, final)) :
    1 ≤ attempts ∧
    final.createdAt = nowAt (attempts - 1) ∧
    final.id = getID final.core ∧
    (∀ t : Int, pow.MineEvent getID nowAt fuel { ev with createdAt := t } target =
        some (nonce, attempts, final)) := by
  obtain ⟨-, g2, -, g4, g5, -, -, -⟩ :=
    pow.mineLoop_spec getID nowAt target fuel ev 0 0 nonce attempts final h
  refine ⟨by omega, g4, g2, ?_⟩
  intro t
  rw [pow.MineEvent, pow.mineLoop_createdAt_irrel]
  exact h

theorem MineEvent_embeds_final_timestamp_witness :
    pow.MineEvent wGetID wNow 1 wEv 8 = some (0, 1, wFinal) ∧
    (1 ≤ 1 ∧ wFinal.createdAt = wNow 0 ∧ wFinal.id = wGetID wFinal.core ∧
      (∀ t : Int, pow.MineEvent wGetID wNow 1 { wEv with createdAt := t } 8 =
          some (0, 1, wFinal))) :=
  ⟨by decide, by
    have hm := MineEvent_embeds_final_timestamp wGetID wNow 1 wEv 8 0 1 wFinal (by decide)
    simpa using hm⟩

namespace nip44model

/-- Modelled from the spec: the secp256k1 public key is "the
deterministic curve-multiplication of private key by the base point".
The go-nostr nip44 library implementing the curve is not part of this
repository; the cyclic-group structure is modelled as modular
exponentiation, `pubkeyOf p g sk = g ^ sk mod p`. -/
def pubkeyOf (p g sk : Nat) : Nat := g ^ sk % p

/-- Modelled from the spec: `nip44.GenerateConversationKey(pub, priv)`
(missing from src, external go-nostr library) performs the ECDH
`pub ^ priv` and passes the shared secret through a key-derivation
function, abstracted as `kdf`. -/
def GenerateConversationKey (p : Nat) (kdf : Nat → Nat) (pub priv : Nat) : Nat :=
  kdf (pub ^ priv % p)

/-- Modelled from the spec: the NIP-44 padded length bucket (next
multiple of 32 of the plaintext length). -/
def calcPaddedLen (n : Nat) : Nat := 32 * ((n + 31) / 32)

/-- Modelled from the spec: length-prefixed padding of the plaintext
bytes to the padded-length bucket. -/
def pad (pt : List Nat) : List Nat :=
  pt.length :: (pt ++ List.replicate (calcPaddedLen pt.length - pt.length) 0)

/-- Modelled from the spec: strip the padding using the stored length. -/
def unpad : List Nat → List Nat
  | [] => []
  | n :: rest => rest.take n

/-- Modelled from the spec: the ChaCha20-class stream cipher — each byte
is xored with the keystream byte at its position; `ks i` abstracts the
keystream generated from the key and the envelope nonce. -/
def xorStream (ks : Nat → Nat) : Nat → List Nat → List Nat
  | _, [] => []
  | i, b :: bs => (b ^^^ ks i) :: xorStream ks (i + 1) bs

/-- A NIP-44 ciphertext envelope (modelled from the spec):
version byte, nonce, ciphertext and authentication tag.  The MAC is
idealized as the authenticated data itself (perfect authentication):
verification succeeds exactly for the key/nonce/ciphertext it was
produced over. -/
structure Envelope where
  version : Nat
  nonce : Nat
  ct : List Nat
  mac : Nat × Nat × List Nat
deriving Repr, DecidableEq

/-- Modelled from the spec: `nip44.Encrypt` — version byte 2, fresh
nonce, stream-encrypted padded plaintext, MAC over key, nonce and
ciphertext. -/
def encryptEnv (ks : Nat → Nat → Nat → Nat) (key nonce : Nat)
    (pt : List Nat) : Envelope :=
  let ct := xorStream (ks key nonce) 0 (pad pt)
  ⟨2, nonce, ct, (key, nonce, ct)⟩

/-- Modelled from the spec: `nip44.Decrypt` — parse the version byte
(UnsupportedVersion if unknown), verify the MAC (AuthenticationFailure
on mismatch, never revealing plaintext), then decrypt and unpad. -/
def decryptEnv (ks : Nat → Nat → Nat → Nat) (key : Nat) (env : Envelope) :
    Except String (List Nat) :=
  if env.version ≠ 2 then .error "unsupported version"
  else if env.mac ≠ (key, env.nonce, env.ct) then .error "invalid MAC"
  else .ok (unpad (xorStream (ks key env.nonce) 0 env.ct))

theorem GenerateConversationKey_symm (p g : Nat) (kdf : Nat → Nat) (a b : Nat) :
    GenerateConversationKey p kdf (pubkeyOf p g b) a =
      GenerateConversationKey p kdf (pubkeyOf p g a) b := by
  unfold GenerateConversationKey pubkeyOf
  rw [← Nat.pow_mod, ← Nat.pow_mod, ← Nat.pow_mul, ← Nat.pow_mul, Nat.mul_comm]

theorem xorStream_involutive (ks : Nat → Nat) (i : Nat) (l : List Nat) :
    xorStream ks i (xorStream ks i l) = l := by
  induction l generalizing i with
  | nil => rfl
  | cons b bs ih =>
    simp [xorStream, Nat.xor_assoc, Nat.xor_self, Nat.xor_zero, ih]

theorem unpad_pad (pt : List Nat) : unpad (pad pt) = pt := by
  simp [pad, unpad, List.take_append_of_le_length, List.take_length]

theorem decryptEnv_encryptEnv (ks : Nat → Nat → Nat → Nat) (key nonce : Nat)
    (pt : List Nat) :
    decryptEnv ks key (encryptEnv ks key nonce pt) = .ok pt := by
  simp [decryptEnv, encryptEnv, xorStream_involutive, unpad_pad]

end nip44model

namespace crypto

/-- `Encrypt(plaintext, senderPrivKey, recipientPubKey)` from
`internal/crypto/nip44.go`: derive the conversation key from the
recipient's public key and the sender's private key, then run NIP-44
encryption.  (The hex key strings of the source are modelled as the
scalars they denote; plaintext is its byte sequence.) -/
def Encrypt (p : Nat) (kdf : Nat → Nat) (ks : Nat → Nat → Nat → Nat)
    (nonce : Nat) (plaintext : List Nat)
    (senderPrivKey recipientPubKey : Nat) : nip44model.Envelope :=
  nip44model.encryptEnv ks
    (nip44model.GenerateConversationKey p kdf recipientPubKey senderPrivKey)
    nonce plaintext

/-- `Decrypt(ciphertext, recipientPrivKey, senderPubKey)` from
`internal/crypto/nip44.go`: derive the conversation key from the
sender's public key and the recipient's private key, then run NIP-44
decryption.  The Go function returns `("", err)` on failure; this is
modelled as the pair (plaintext bytes, optional error message) with an
empty byte list on error. -/
def Decrypt (p : Nat) (kdf : Nat → Nat) (ks : Nat → Nat → Nat → Nat)
    (ciphertext : nip44model.Envelope)
    (recipientPrivKey senderPubKey : Nat) : List Nat × Option String :=
  match nip44model.decryptEnv ks
      (nip44model.GenerateConversationKey p kdf senderPubKey recipientPrivKey)
      ciphertext with
  | .ok pt => (pt, none)
  | .error e => ([], some ("Failed to decrypt: " ++ e))

end crypto

/-- C2: for every plaintext and every pair of keypairs (a, g^a) and
(b, g^b), decrypting an encryption made with (skA, pkB) using
(skB, pkA) returns exactly the original plaintext with no error, and
the two derived conversation keys coincide (ECDH symmetry). -/
theorem Decrypt_Encrypt_roundtrip (p g : Nat) (kdf : Nat → Nat)
    (ks : Nat → Nat → Nat → Nat) (a b nonce : Nat) (plaintext : List Nat) :
    crypto.Decrypt p kdf ks
        (crypto.Encrypt p kdf ks nonce plaintext a (nip44model.pubkeyOf p g b))
        b (nip44model.pubkeyOf p g a) = (plaintext, none) ∧
    nip44model.GenerateConversationKey p kdf (nip44model.pubkeyOf p g b) a =
      nip44model.GenerateConversationKey p kdf (nip44model.pubkeyOf p g a) b := by
  have hsym := nip44model.GenerateConversationKey_symm p g kdf a b
  refine ⟨?_, hsym⟩
  rw [crypto.Decrypt, crypto.Encrypt, ← hsym, nip44model.decryptEnv_encryptEnv]

/-- C5: decryption fails closed with an error and empty output whenever
the key pair used is not the one the envelope was encrypted for (its
derived conversation key differs from the encryption key), whenever the
envelope's version byte is unknown, and in general whenever the NIP-44
layer reports any failure — no partial plaintext is ever produced. -/
theorem Decrypt_wrong_key_fails (p : Nat) (kdf : Nat → Nat)
    (ks : Nat → Nat → Nat → Nat) (key nonce : Nat) (plaintext : List Nat)
    (recipientPrivKey senderPubKey : Nat)
    (hwrong : nip44model.GenerateConversationKey p kdf senderPubKey
        recipientPrivKey ≠ key) :
    (∃ msg, crypto.Decrypt p kdf ks (nip44model.encryptEnv ks key nonce plaintext)
        recipientPrivKey senderPubKey = ([], some msg)) ∧
    (∀ env : nip44model.Envelope, env.version ≠ 2 →
      ∃ msg, crypto.Decrypt p kdf ks env recipientPrivKey senderPubKey =
        ([], some msg)) ∧
    (∀ env : nip44model.Envelope,
      (∃ e, nip44model.decryptEnv ks
          (nip44model.GenerateConversationKey p kdf senderPubKey recipientPrivKey)
          env = .error e) →
      ∃ msg, crypto.Decrypt p kdf ks env recipientPrivKey senderPubKey =
        ([], some msg)) := by
  refine ⟨?_, ?_, ?_⟩
  · refine ⟨"Failed to decrypt: invalid MAC", ?_⟩
    rw [crypto.Decrypt]
    have hmac : (nip44model.encryptEnv ks key nonce plaintext).mac ≠
        (nip44model.GenerateConversationKey p kdf senderPubKey recipientPrivKey,
          (nip44model.encryptEnv ks key nonce plaintext).nonce,
          (nip44model.encryptEnv ks key nonce plaintext).ct) := by
      simp only [nip44model.encryptEnv, ne_eq, Prod.mk.injEq, not_and]
      intro hk
      exact absurd hk.symm hwrong
    rw [nip44model.decryptEnv, if_neg (by simp [nip44model.encryptEnv]),
      if_pos hmac]
    rfl
  · intro env hv
    exact ⟨"Failed to decrypt: unsupported version", by
      rw [crypto.Decrypt, nip44model.decryptEnv, if_pos hv]; rfl⟩
  · intro env ⟨e, he⟩
    exact ⟨"Failed to decrypt: " ++ e, by rw [crypto.Decrypt, he]⟩

def wKs : Nat → Nat → Nat → Nat := fun _ _ _ => 0

theorem Decrypt_wrong_key_fails_witness :
    nip44model.GenerateConversationKey 101 id 2 3 ≠ 1 ∧
    ((∃ msg, crypto.Decrypt 101 id wKs (nip44model.encryptEnv wKs 1 0 [104, 105])
        3 2 = ([], some msg)) ∧
      (∀ env : nip44model.Envelope, env.version ≠ 2 →
        ∃ msg, crypto.Decrypt 101 id wKs env 3 2 = ([], some msg)) ∧
      (∀ env : nip44model.Envelope,
        (∃ e, nip44model.decryptEnv wKs
            (nip44model.GenerateConversationKey 101 id 2 3) env = .error e) →
        ∃ msg, crypto.Decrypt 101 id wKs env 3 2 = ([], some msg))) :=
  ⟨by decide,
    Decrypt_wrong_key_fails 101 id wKs 1 0 [104, 105] 3 2 (by decide)⟩

namespace mobile

/-- Go `len(tag) >= 2 && tag[0] == "p" && tag[1] == x`: a contact tag
for pubkey `x`. -/
def isPTagFor (x : String) (t : List String) : Bool :=
  2 ≤ t.length ∧ t[0]? = some "p" ∧ t[1]? = some x

/-- The latest-event selection loop of `Follow`/`Unfollow`: scan the
query result keeping the first event with strictly greatest created-at
(`evt.CreatedAt > currentEvent.CreatedAt` replaces). -/
def latestStep (cur : Option NEvent) (evt : NEvent) : Option NEvent :=
  match cur with
  | none => some evt
  | some c => if c.createdAt < evt.createdAt then some evt else some c

/-- `currentEvent` after the scan: `none` iff the query returned no
events. -/
def findLatest (events : List NEvent) : Option NEvent :=
  events.foldl latestStep none

/-- Outcome of `Follow`: `alreadyFollowing` stands for the early return
`("already_following", nil)` that neither signs nor publishes;
`publish ev` stands for signing `ev` and publishing it (returning "ok",
or the publish error).  The id and signature that `Sign` fills in are
not modelled (id left empty). -/
inductive FollowOutcome where
  | alreadyFollowing
  | publish (ev : NEvent)
deriving Repr, DecidableEq

/-- Outcome of `Unfollow`, analogously: `notFollowing` stands for the
early return `("not_following", nil)` with nothing signed or
published. -/
inductive UnfollowOutcome where
  | notFollowing
  | publish (ev : NEvent)
deriving Repr, DecidableEq

/-- `Follow(pubkeyToFollow)` from the mobile package, with the relay
round trip factored out: `events` is the Kind-3 QuerySync result for the
own pubkey and `now` the fresh timestamp.  Copy every tag of the latest
contact list, detect an existing `("p", target)` tag while copying,
return early when found, else append `("p", target)` and preserve the
old content. -/
def Follow (events : List NEvent) (myPubkey pubkeyToFollow : String)
    (now : Int) : FollowOutcome :=
  let currentEvent := findLatest events
  let baseTags := match currentEvent with
    | none => []
    | some e => e.tags
  if baseTags.any (isPTagFor pubkeyToFollow) then .alreadyFollowing
  else .publish
    { id := "", pubkey := myPubkey, createdAt := now, kind := 3,
      tags := baseTags ++ [["p", pubkeyToFollow]],
      content := match currentEvent with
        | none => ""
        | some e => e.content }

/-- `Unfollow(pubkeyToUnfollow)` from the mobile package: if no contact
list exists return early; else drop exactly the `("p", target)` tags,
return early when none was found, and otherwise publish the filtered
list with the content preserved. -/
def Unfollow (events : List NEvent) (myPubkey pubkeyToUnfollow : String)
    (now : Int) : UnfollowOutcome :=
  match findLatest events with
  | none => .notFollowing
  | some currentEvent =>
    if currentEvent.tags.any (isPTagFor pubkeyToUnfollow) then
      .publish
        { id := "", pubkey := myPubkey, createdAt := now, kind := 3,
          tags := currentEvent.tags.filter
            (fun t => !(isPTagFor pubkeyToUnfollow t)),
          content := currentEvent.content }
    else .notFollowing

theorem foldl_latestStep_spec (events : List NEvent) :
    ∀ (c0 c : NEvent), events.foldl latestStep (some c0) = some c →
      (c = c0 ∨ c ∈ events) ∧ c0.createdAt ≤ c.createdAt ∧
        ∀ e ∈ events, e.createdAt ≤ c.createdAt := by
  induction events with
  | nil =>
    intro c0 c h
    simp only [List.foldl_nil, Option.some.injEq] at h
    subst h
    exact ⟨Or.inl rfl, le_refl _, by simp⟩
  | cons e es ih =>
    intro c0 c h
    rw [List.foldl_cons] at h
    by_cases hlt : c0.createdAt < e.createdAt
    · rw [show latestStep (some c0) e = some e by simp [latestStep, hlt]] at h
      obtain ⟨hmem, hle, hall⟩ := ih e c h
      refine ⟨?_, by omega, ?_⟩
      · rcases hmem with rfl | hm
        · exact Or.inr (List.mem_cons_self _ _)
        · exact Or.inr (List.mem_cons_of_mem _ hm)
      · intro e' he'
        rcases List.mem_cons.1 he' with rfl | hm
        · exact hle
        · exact hall e' hm
    · rw [show latestStep (some c0) e = some c0 by simp [latestStep, hlt]] at h
      obtain ⟨hmem, hle, hall⟩ := ih c0 c h
      refine ⟨?_, hle, ?_⟩
      · rcases hmem with rfl | hm
        · exact Or.inl rfl
        · exact Or.inr (List.mem_cons_of_mem _ hm)
      · intro e' he'
        rcases List.mem_cons.1 he' with rfl | hm
        · omega
        · exact hall e' hm

theorem findLatest_spec (events : List NEvent) (c : NEvent)
    (h : findLatest events = some c) :
    c ∈ events ∧ ∀ e ∈ events, e.createdAt ≤ c.createdAt := by
  cases events with
  | nil => simp [findLatest] at h
  | cons e es =>
    rw [findLatest, List.foldl_cons,
      show latestStep none e = some e from rfl] at h
    obtain ⟨hmem, hle, hall⟩ := foldl_latestStep_spec es e c h
    refine ⟨?_, ?_⟩
    · rcases hmem with rfl | hm
      · exact List.mem_cons_self _ _
      · exact List.mem_cons_of_mem _ hm
    · intro e' he'
      rcases List.mem_cons.1 he' with rfl | hm
      · exact hle
      · exact hall e' hm

end mobile

/-- C6: `Follow(X)` builds the new kind-3 event from the queried event
with the greatest created-at by keeping every existing tag and appending
`("p", X)`, preserving the content; `Unfollow(X)` removes exactly the
`("p", X)` tags, keeping every other tag and the content; and the
follow-then-unfollow scenario starting from an empty contact list first
yields a list containing X and then one with X absent. -/
theorem Follow_Unfollow_contact_list
    (events : List NEvent) (me x : String) (now now2 : Int) (cur : NEvent)
    (hcur : mobile.findLatest events = some cur) :
    (cur ∈ events ∧ ∀ e ∈ events, e.createdAt ≤ cur.createdAt) ∧
    (cur.tags.any (mobile.isPTagFor x) = false →
      mobile.Follow events me x now = .publish
        { id := "", pubkey := me, createdAt := now, kind := 3,
          tags := cur.tags ++ [["p", x]], content := cur.content }) ∧
    (cur.tags.any (mobile.isPTagFor x) = true →
      mobile.Unfollow events me x now = .publish
        { id := "", pubkey := me, createdAt := now, kind := 3,
          tags := cur.tags.filter (fun t => !(mobile.isPTagFor x t)),
          content := cur.content }) ∧
    (∃ ev1, mobile.Follow [] me x now = .publish ev1 ∧
      ev1.tags = [["p", x]] ∧ ev1.content = "" ∧
      ∃ ev2, mobile.Unfollow [ev1] me x now2 = .publish ev2 ∧
        ev2.tags = [] ∧ ev2.content = "") := by
  refine ⟨mobile.findLatest_spec events cur hcur, ?_, ?_, ?_⟩
  · intro hno
    simp [mobile.Follow, hcur, hno]
  · intro hyes
    simp [mobile.Unfollow, hcur, hyes]
  · have hp : mobile.isPTagFor x ["p", x] = true := by
      simp [mobile.isPTagFor]
    refine ⟨⟨"", me, now, 3, [["p", x]], ""⟩, ?_, rfl, rfl,
      ⟨"", me, now2, 3, [], ""⟩, ?_, rfl, rfl⟩
    · simp [mobile.Follow, mobile.findLatest]
    · simp [mobile.Unfollow, mobile.findLatest, mobile.latestStep, hp]

def wOld : NEvent := ⟨"", "me", 50, 3, [], "old"⟩

def wCL : NEvent := ⟨"", "me", 100, 3, [["p", "alice"], ["r", "wss://r"]], "{}"⟩

theorem Follow_Unfollow_contact_list_witness :
    mobile.findLatest [wOld, wCL] = some wCL ∧
    ((wCL ∈ [wOld, wCL] ∧ ∀ e ∈ [wOld, wCL], e.createdAt ≤ wCL.createdAt) ∧
      (wCL.tags.any (mobile.isPTagFor "bob") = false →
        mobile.Follow [wOld, wCL] "me" "bob" 200 = .publish
          { id := "", pubkey := "me", createdAt := 200, kind := 3,
            tags := wCL.tags ++ [["p", "bob"]], content := wCL.content }) ∧
      (wCL.tags.any (mobile.isPTagFor "bob") = true →
        mobile.Unfollow [wOld, wCL] "me" "bob" 200 = .publish
          { id := "", pubkey := "me", createdAt := 200, kind := 3,
            tags := wCL.tags.filter (fun t => !(mobile.isPTagFor "bob" t)),
            content := wCL.content }) ∧
      (∃ ev1, mobile.Follow [] "me" "bob" 200 = .publish ev1 ∧
        ev1.tags = [["p", "bob"]] ∧ ev1.content = "" ∧
        ∃ ev2, mobile.Unfollow [ev1] "me" "bob" 201 = .publish ev2 ∧
          ev2.tags = [] ∧ ev2.content = "")) :=
  ⟨by decide,
    Follow_Unfollow_contact_list [wOld, wCL] "me" "bob" 200 201 wCL (by decide)⟩

/-- C9: `Follow(X)` takes its no-publish early exit `"already_following"`
exactly when the latest contact list has a `("p", X)` tag, and
`Unfollow(X)` takes its no-publish early exit `"not_following"` exactly
when no contact list exists or the latest one has no `("p", X)` tag. -/
theorem Follow_already_Unfollow_not
    (events : List NEvent) (me x : String) (now : Int) :
    (mobile.Follow events me x now = .alreadyFollowing ↔
      ∃ cur, mobile.findLatest events = some cur ∧
        cur.tags.any (mobile.isPTagFor x) = true) ∧
    (mobile.Unfollow events me x now = .notFollowing ↔
      (mobile.findLatest events = none ∨
        ∃ cur, mobile.findLatest events = some cur ∧
          cur.tags.any (mobile.isPTagFor x) = false)) := by
  constructor
  · cases h : mobile.findLatest events with
    | none => simp [mobile.Follow, h]
    | some cur =>
      cases ha : cur.tags.any (mobile.isPTagFor x) with
      | false =>
        simp only [mobile.Follow, h, ha, Bool.false_eq_true, if_false]
        constructor
        · intro hc; cases hc
        · rintro ⟨c, hc, hct⟩
          rw [Option.some.injEq] at hc
          subst hc
          rw [ha] at hct
          cases hct
      | true =>
        simp only [mobile.Follow, h, ha, if_true]
        exact ⟨fun _ => ⟨cur, rfl, ha⟩, fun _ => trivial⟩
  · cases h : mobile.findLatest events with
    | none => simp [mobile.Unfollow, h]
    | some cur =>
      cases ha : cur.tags.any (mobile.isPTagFor x) with
      | false =>
        simp only [mobile.Unfollow, h, ha, Bool.false_eq_true, if_false]
        exact ⟨fun _ => Or.inr ⟨cur, rfl, ha⟩, fun _ => trivial⟩
      | true =>
        simp only [mobile.Unfollow, h, ha, if_true]
        constructor
        · intro hc; cases hc
        · rintro (hn | ⟨c, hc, hct⟩)
          · exact Option.noConfusion hn
          · obtain rfl := Option.some.inj hc
            rw [ha] at hct
            cases hct

namespace mobile

/-- Kind-0 profile metadata (mobile `Profile`). -/
structure Profile where
  name : String
  picture : String
  about : String
  banner : String
  website : String
deriving Repr, DecidableEq

/-- `cacheProfile(pubkey, content)` from the mobile package: parse the
kind-0 content (Go `json.Unmarshal` into `Profile`, an external standard
library call abstracted as `parse`); on parse failure skip, leaving the
cache unchanged, otherwise overwrite the entry for `pubkey`. -/
def cacheProfile (parse : String → Option Profile)
    (cache : String → Option Profile) (pubkey content : String) :
    String → Option Profile :=
  match parse content with
  | none => cache
  | some profile => fun k => if k = pubkey then some profile else cache k

/-- The profile-cache effect of `processEvent`: kind-0 events are parsed
and cached; events of every other kind only enrich/forward and leave the
cache untouched. -/
def processEventCache (parse : String → Option Profile)
    (cache : String → Option Profile) (e : NEvent) :
    String → Option Profile :=
  if e.kind = 0 then cacheProfile parse cache e.pubkey e.content else cache

/-- Processing a stream of inbound events in arrival order. -/
def processEvents (parse : String → Option Profile)
    (cache : String → Option Profile) (events : List NEvent) :
    String → Option Profile :=
  events.foldl (processEventCache parse) cache

/-- A kind-0 event for `pk` whose content parses. -/
def isValidK0For (parse : String → Option Profile) (pk : String)
    (e : NEvent) : Bool :=
  e.kind = 0 ∧ e.pubkey = pk ∧ (parse e.content).isSome

theorem find?_append_some {α} (p : α → Bool) (l1 l2 : List α) (x : α)
    (h : l1.find? p = some x) : (l1 ++ l2).find? p = some x := by
  induction l1 with
  | nil => simp [List.find?] at h
  | cons a l ih =>
    rw [List.cons_append]
    cases hp : p a with
    | true =>
      rw [List.find?_cons_of_pos _ hp] at h
      rw [List.find?_cons_of_pos _ hp]
      exact h
    | false =>
      rw [List.find?_cons_of_neg _ (by simp [hp])] at h
      rw [List.find?_cons_of_neg _ (by simp [hp])]
      exact ih h

theorem find?_append_none {α} (p : α → Bool) (l1 l2 : List α)
    (h : l1.find? p = none) : (l1 ++ l2).find? p = l2.find? p := by
  induction l1 with
  | nil => simp
  | cons a l ih =>
    rw [List.cons_append]
    cases hp : p a with
    | true => rw [List.find?_cons_of_pos _ hp] at h; cases h
    | false =>
      rw [List.find?_cons_of_neg _ (by simp [hp])] at h
      rw [List.find?_cons_of_neg _ (by simp [hp])]
      exact ih h

theorem processEvents_find (parse : String → Option Profile) (pk : String) :
    ∀ (events : List NEvent) (cache : String → Option Profile),
      processEvents parse cache events pk =
        match events.reverse.find? (isValidK0For parse pk) with
        | none => cache pk
        | some e => parse e.content := by
  intro events
  induction events with
  | nil => intro cache; rfl
  | cons e es ih =>
    intro cache
    rw [processEvents, List.foldl_cons]
    rw [show es.foldl (processEventCache parse) (processEventCache parse cache e) =
      processEvents parse (processEventCache parse cache e) es from rfl]
    rw [ih (processEventCache parse cache e), List.reverse_cons]
    cases hf : es.reverse.find? (isValidK0For parse pk) with
    | some x => rw [find?_append_some _ _ _ _ hf]
    | none =>
      rw [find?_append_none _ _ _ hf]
      cases hP : isValidK0For parse pk e with
      | true =>
        rw [List.find?_cons_of_pos _ hP]
        simp only [isValidK0For, Bool.decide_and, Bool.and_eq_true,
          decide_eq_true_eq] at hP
        obtain ⟨hk, hpk, hs⟩ := hP
        obtain ⟨prof, hprof⟩ := Option.isSome_iff_exists.mp hs
        simp [processEventCache, hk, cacheProfile, hprof, hpk]
      | false =>
        rw [List.find?_cons_of_neg _ (by simp [hP])]
        simp only [List.find?_nil]
        by_cases hk : e.kind = 0
        · cases hc : parse e.content with
          | none => simp [processEventCache, hk, cacheProfile, hc]
          | some prof =>
            by_cases hpk : e.pubkey = pk
            · rw [isValidK0For] at hP
              simp [hk, hpk, hc] at hP
            · simp [processEventCache, hk, cacheProfile, hc, Ne.symm hpk]
        · simp [processEventCache, hk]

end mobile

/-- C8: the profile cache is last-write-wins by arrival order: after
processing any event stream, the entry for a pubkey holds the parsed
fields of the most recently processed kind-0 event of that pubkey whose
content parsed, independently of the events' created-at values; a
kind-0 event whose content does not parse leaves the entry unchanged. -/
theorem profileCache_last_write_wins
    (parse : String → Option mobile.Profile)
    (cache : String → Option mobile.Profile) (events : List NEvent)
    (pk : String) :
    (mobile.processEvents parse cache events pk =
      match events.reverse.find? (mobile.isValidK0For parse pk) with
      | none => cache pk
      | some e => parse e.content) ∧
    (∀ content, parse content = none →
      ∀ (c : String → Option mobile.Profile) (p2 : String),
        mobile.cacheProfile parse c p2 content = c) ∧
    (∀ shift : NEvent → Int,
      mobile.processEvents parse cache
          (events.map (fun e => { e with createdAt := shift e })) pk =
        mobile.processEvents parse cache events pk) := by
  refine ⟨mobile.processEvents_find parse pk events cache, ?_, ?_⟩
  · intro content hnone c p2
    rw [mobile.cacheProfile, hnone]
  · intro shift
    rw [mobile.processEvents, List.foldl_map]
    rfl

namespace mobile

/-- `LikeResult` from the mobile reactions file. -/
structure LikeResult where
  isLiked : Bool
  likeEventID : String
  postID : String
deriving Repr, DecidableEq

/-- The kind-7 reaction event built by `sendLike`: content `"+"` and a
single e-tag naming the liked post. -/
def likeEvent (myPubkey : String) (now : Int) (postId : String) : NEvent :=
  ⟨"", myPubkey, now, 7, [["e", postId]], "+"⟩

/-- The kind-5 deletion event built by `sendUnlike`: content `"unlike"`
and an e-tag naming the like event being deleted. -/
def unlikeEvent (myPubkey : String) (now : Int) (likeEventId : String) :
    NEvent :=
  ⟨"", myPubkey, now, 5, [["e", likeEventId]], "unlike"⟩

/-- The like event after `ev.Sign` filled in its id (`getID` abstracts
the go-nostr hash as in the miner; the signature is not modelled). -/
def signedLikeEvent (getID : EventCore → String) (myPubkey : String)
    (now : Int) (postId : String) : NEvent :=
  { likeEvent myPubkey now postId with
      id := getID (likeEvent myPubkey now postId).core }

/-- The deletion event after `ev.Sign` filled in its id. -/
def signedUnlikeEvent (getID : EventCore → String) (myPubkey : String)
    (now : Int) (likeEventId : String) : NEvent :=
  { unlikeEvent myPubkey now likeEventId with
      id := getID (unlikeEvent myPubkey now likeEventId).core }

/-- `ToggleLike(postId)`: the like cache is an association list
(postId → likeEventId) standing for the Go map.  `publishOk` abstracts
the outcome of `Publish` on the relay.  Returns the new cache, the
`LikeResult` (`none` when the function returns an error), and the event
that was published (`none` on failure).  Cached post: send the kind-5
deletion for the stored like id and remove the entry; uncached post:
send the kind-7 like and store its event id; on publish failure return
the error before touching the cache. -/
def ToggleLike (getID : EventCore → String) (publishOk : Bool)
    (likeCache : List (String × String)) (myPubkey postId : String)
    (now : Int) :
    List (String × String) × Option LikeResult × Option NEvent :=
  match likeCache.lookup postId with
  | some existingLikeId =>
    if publishOk then
      (likeCache.filter (fun kv => kv.1 ≠ postId),
        some ⟨false, "", postId⟩,
        some (signedUnlikeEvent getID myPubkey now existingLikeId))
    else (likeCache, none, none)
  | none =>
    if publishOk then
      ((postId, getID (likeEvent myPubkey now postId).core) :: likeCache,
        some ⟨true, getID (likeEvent myPubkey now postId).core, postId⟩,
        some (signedLikeEvent getID myPubkey now postId))
    else (likeCache, none, none)

/-- `IsPostLiked(postId)`: membership in the like cache. -/
def IsPostLiked (likeCache : List (String × String)) (postId : String) :
    Bool :=
  (likeCache.lookup postId).isSome

theorem lookup_filter_ne (postId : String) (l : List (String × String)) :
    (l.filter (fun kv => kv.1 ≠ postId)).lookup postId = none := by
  induction l with
  | nil => rfl
  | cons kv l ih =>
    obtain ⟨k, v⟩ := kv
    rw [List.filter_cons]
    by_cases hk : k = postId
    · rw [if_neg (by simp [hk])]
      exact ih
    · rw [if_pos (by simp [hk])]
      have hbeq : (postId == k) = false := beq_eq_false_iff_ne.mpr (Ne.symm hk)
      simp only [List.lookup, hbeq]
      exact ih

end mobile

/-- C10: the like cache tracks the last successful toggle: liking an
uncached post publishes a kind-7 reaction with content "+" and an e-tag
for the post and caches its event id; toggling a cached post publishes a
kind-5 deletion referencing the stored like-event id and removes the
entry; `IsPostLiked` is exactly cache membership; and a failed publish
leaves the cache unchanged with an error and nothing published. -/
theorem ToggleLike_cache_invariant (getID : EventCore → String)
    (likeCache : List (String × String)) (me postId : String) (now : Int) :
    (likeCache.lookup postId = none →
      mobile.ToggleLike getID true likeCache me postId now =
        ((postId, getID (mobile.likeEvent me now postId).core) :: likeCache,
          some ⟨true, getID (mobile.likeEvent me now postId).core, postId⟩,
          some (mobile.signedLikeEvent getID me now postId)) ∧
      mobile.IsPostLiked
        ((postId, getID (mobile.likeEvent me now postId).core) :: likeCache)
        postId = true) ∧
    (∀ lid, likeCache.lookup postId = some lid →
      mobile.ToggleLike getID true likeCache me postId now =
        (likeCache.filter (fun kv => kv.1 ≠ postId),
          some ⟨false, "", postId⟩,
          some (mobile.signedUnlikeEvent getID me now lid)) ∧
      mobile.IsPostLiked (likeCache.filter (fun kv => kv.1 ≠ postId))
        postId = false) ∧
    (mobile.ToggleLike getID false likeCache me postId now =
      (likeCache, none, none)) ∧
    (∀ p, mobile.IsPostLiked likeCache p = (likeCache.lookup p).isSome) ∧
    ((mobile.likeEvent me now postId).kind = 7 ∧
      (mobile.likeEvent me now postId).content = "+" ∧
      (mobile.likeEvent me now postId).tags = [["e", postId]]) ∧
    (∀ lid, (mobile.unlikeEvent me now lid).kind = 5 ∧
      (mobile.unlikeEvent me now lid).content = "unlike" ∧
      (mobile.unlikeEvent me now lid).tags = [["e", lid]]) := by
  refine ⟨?_, ?_, ?_, fun _ => rfl, ⟨rfl, rfl, rfl⟩, fun _ => ⟨rfl, rfl, rfl⟩⟩
  · intro h
    constructor
    · rw [mobile.ToggleLike, h]
      rfl
    · simp [mobile.IsPostLiked, List.lookup]
  · intro lid h
    constructor
    · rw [mobile.ToggleLike, h]
      rfl
    · rw [mobile.IsPostLiked, mobile.lookup_filter_ne]
      rfl
  · rw [mobile.ToggleLike]
    cases h : likeCache.lookup postId <;> rfl
